import Mathlib

/-!
Verification of `src/problem1/merge_worker.py`: a two-party external merge in
which two workers, each holding one sorted integer run, exchange single-slot
mailbox messages and append merged values to one shared output sink, driven by
a turn-based coordinator.

The embedding models the filesystem environment of one worker as a `WView`
(state file, inbox slot, outbox slot, output sink) and the whole job as a
`GWorld`.  `stepPure` is the translation of `MergeWorker.step` (lines 56-179
of `merge_worker.py`); uncaught Python exceptions are modelled by
`Except.error`.  The list of values appended to the shared output file is
modelled as a `List Int` (the textual comma rendering is governed by the
boolean separator flag, which is modelled faithfully as the `flag` field
threaded through messages, since only the flag -- not the raw bytes --
influences control flow).
-/

/-- The persisted `phase` field of a worker's state dict.  The code stores the
strings `"INIT"`, `"LOCK"`, `"UNLOCK"`, `"DONE"`. -/
inductive Phase
  | INIT
  | LOCK
  | UNLOCK
  | DONE
deriving DecidableEq, Repr

/-- The message tag after stripping the leading separator-flag character:
`"UNLO"` (a chunk) or `"DONE"` (a final message). -/
inductive MTag
  | UNLO
  | DONE
deriving DecidableEq, Repr

/-- A wire message (`Message` dataclass, lines 6-9, plus the `'T'`/`'F'`
separator-flag character the code prepends to `msg_type` in lines 166-169):
tag, ordered list of integers, and the separator-seen flag. -/
structure Message where
  tag : MTag
  values : List Int
  flag : Bool
deriving DecidableEq, Repr

/-- The persisted state dict written by `_save_state` (lines 48-54):
`{"phase": .., "index": .., "len": ..}`. -/
structure WState where
  phase : Phase
  index : Nat
  len : Nat
deriving DecidableEq, Repr

/-- `WorkerStats` (lines 11-16). -/
structure WorkerStats where
  comparisons : Nat
  messages_sent : Nat
  messages_received : Nat
  values_output : Nat
deriving DecidableEq, Repr

/-- All-zero stats, the value `WorkerStats(0, 0, 0, 0)` of line 32.  Inside
`stepPure` the stats start from zero and the caller adds them onto the
worker's accumulated stats; this is equivalent to the source's in-place
`+= 1` increments because every stats mutation is an increment. -/
def zeroStats : WorkerStats := ⟨0, 0, 0, 0⟩

/-- Pointwise sum of stats, used to fold a step's increments into the
worker's accumulated `self.stats`. -/
def addStats (a b : WorkerStats) : WorkerStats :=
  ⟨a.comparisons + b.comparisons, a.messages_sent + b.messages_sent,
   a.messages_received + b.messages_received, a.values_output + b.values_output⟩

/-- Observable side effects of one `step()` call, in the order they are
performed: output-sink appends, the state-file write, the outbox write. -/
inductive Ev
  | append (v : Int)
  | save (s : WState)
  | send (m : Message)
deriving DecidableEq, Repr

/-- One worker's view of the filesystem: its state file, its inbox slot, its
outbox slot, and the shared output sink (as the list of appended values).
`none` models a file that does not exist. -/
structure WView where
  stateFile : Option WState
  inbox : Option Message
  outbox : Option Message
  output : List Int
deriving DecidableEq, Repr

/-- Uncaught Python exceptions reachable in `step`: `IndexError` from
`self.data[index]` / `self.data[-1]`, and `AttributeError` from
`msg.msg_type = ...` when `msg` is `None` (line 166). -/
inductive Err
  | indexError
  | attrError
deriving DecidableEq, Repr

/-- Python slice `data[i:j]` for natural `i ≤ j` (clamped at the list's
length, empty when `j ≤ i`). -/
def pySlice (l : List Int) (i j : Nat) : List Int :=
  (l.drop i).take (j - i)

/-- `_initial_state` (lines 48-54). -/
def initialState (data : List Int) : WState :=
  ⟨Phase.INIT, 0, data.length⟩

/-- `_load_state` (lines 36-41): the state file's content if it exists,
otherwise the initial state. -/
def loadState (stateFile : Option WState) (data : List Int) : WState :=
  match stateFile with
  | some s => s
  | none => initialState data

/-- Result of the emission helpers: the phase string `output_till` returns,
the updated cursor, the separator flag, the output sink, the effect trace and
the stats. -/
structure EmitRes where
  phase : Phase
  index : Nat
  write : Bool
  out : List Int
  evs : List Ev
  stats : WorkerStats
deriving DecidableEq, Repr

/-- The `while index < count and self.data[index] < max_v` loop of
`output_till` (lines 75-82).  `fuel` is always called with `count - index`:
the loop advances `index` by one per iteration, so `fuel = 0` implies the
guard `index < count` is already false and both exits agree. -/
def otLoop (data : List Int) (maxV : Int) (count : Nat) :
    Nat → Nat → Bool → List Int → List Ev → WorkerStats →
    Except Err (Nat × Bool × List Int × List Ev × WorkerStats)
  | 0, index, write, out, evs, stats => .ok (index, write, out, evs, stats)
  | fuel + 1, index, write, out, evs, stats =>
    if index < count then
      match data.get? index with
      | none => .error Err.indexError
      | some v =>
        if v < maxV then
          otLoop data maxV count fuel (index + 1) true (out ++ [v]) (evs ++ [Ev.append v])
            {stats with comparisons := stats.comparisons + 1,
                        values_output := stats.values_output + 1}
        else .ok (index, write, out, evs, stats)
    else .ok (index, write, out, evs, stats)

/-- `output_till(max_v, include)` (lines 71-93): emit every own value below
`maxV` starting at the cursor, then, if `incl`, append `maxV` itself; return
`DONE` when the cursor reached the end of the run, else `LOCK`. -/
def output_till (data : List Int) (maxV : Int) (incl : Bool) (index count : Nat)
    (write : Bool) (out : List Int) (evs : List Ev) (stats : WorkerStats) :
    Except Err EmitRes :=
  match otLoop data maxV count (count - index) index write out evs stats with
  | .error e => .error e
  | .ok (index2, write2, out2, evs2, stats2) =>
    if incl then
      .ok ⟨if count ≤ index2 then Phase.DONE else Phase.LOCK, index2, true,
           out2 ++ [maxV], evs2 ++ [Ev.append maxV],
           {stats2 with values_output := stats2.values_output + 1}⟩
    else
      .ok ⟨if count ≤ index2 then Phase.DONE else Phase.LOCK, index2, write2,
           out2, evs2, stats2⟩

/-- The `for i in inbox_value: self.state['phase'] = output_till(i, True)`
loops of lines 147-148 and 154-155. -/
def emitAll (data : List Int) (vals : List Int) (phase : Phase) (index count : Nat)
    (write : Bool) (out : List Int) (evs : List Ev) (stats : WorkerStats) :
    Except Err EmitRes :=
  match vals with
  | [] => .ok ⟨phase, index, write, out, evs, stats⟩
  | v :: rest =>
    match output_till data v true index count write out evs stats with
    | .error e => .error e
    | .ok r => emitAll data rest r.phase r.index count r.write r.out r.evs r.stats

/-- The guard `inbox and inbox['msg_type'] == 'DONE'` of line 143. -/
def isDoneMsg : Option Message → Bool
  | some m => m.tag == MTag.DONE
  | none => false

/-- The chained comparison
`inbox and inbox['msg_type'] == self.state['phase'] == 'DONE'` of line 177. -/
def bothDoneCheck (inbox : Option Message) (phase : Phase) : Bool :=
  match inbox with
  | some m => m.tag == MTag.DONE && phase == Phase.DONE
  | none => false

/-- The three branches of lines 133-163: first move, peer finished, steady
state.  Returns the updated state dict, the outgoing message before flag
prefixing (`none` models the Python variable `msg` still being `None`), the
separator flag, the output sink, the append events, and the stats. -/
def stepBranches (data : List Int) (st : WState) (inbox : Option Message)
    (write : Bool) (out : List Int) (stats : WorkerStats) :
    Except Err (WState × Option (MTag × List Int) × Bool × List Int × List Ev × WorkerStats) :=
  -- lines 129-131
  let inboxValues := match inbox with | some m => m.values | none => []
  -- line 133
  let nextindex := min st.len (st.index + 11)
  if st.phase = Phase.INIT ∧ inbox = none then
    -- lines 135-142: first move, send the first chunk
    let vals := pySlice data st.index nextindex
    if st.len ≤ nextindex then
      .ok ({st with index := nextindex, phase := Phase.DONE},
           some (MTag.DONE, vals), write, out, [], stats)
    else
      .ok ({st with index := nextindex, phase := Phase.LOCK},
           some (MTag.UNLO, vals), write, out, [], stats)
  else if isDoneMsg inbox then
    -- lines 143-151: peer finished, flush everything
    if st.phase = Phase.DONE then
      .ok (st, none, write, out, [], stats)
    else
      match emitAll data inboxValues st.phase st.index st.len write out [] stats with
      | .error e => .error e
      | .ok r =>
        match data.getLast? with
        | none => .error Err.indexError   -- self.data[-1] on an empty run, line 149
        | some last =>
          match output_till data (last + 1) false r.index st.len r.write r.out r.evs r.stats with
          | .error e => .error e
          | .ok r2 =>
            .ok ({st with phase := r2.phase, index := r2.index},
                 some (MTag.DONE, []), r2.write, r2.out, r2.evs, r2.stats)
  else
    -- lines 152-163: steady state, emit against the checkpoints, send next chunk
    match (if inboxValues.isEmpty then
             .ok ⟨st.phase, st.index, write, out, [], stats⟩
           else emitAll data inboxValues st.phase st.index st.len write out [] stats) with
    | .error e => .error e
    | .ok r =>
      let nextindex2 := min st.len (r.index + 11)
      let vals := pySlice data r.index nextindex2
      if r.phase ≠ Phase.DONE then
        .ok ({st with phase := Phase.LOCK, index := nextindex2},
             some (MTag.UNLO, vals), r.write, r.out, r.evs, r.stats)
      else
        .ok ({st with phase := r.phase, index := nextindex2},
             some (MTag.DONE, vals), r.write, r.out, r.evs, r.stats)

/-- Result of one `step()` call: the worker's in-memory `self.state` after
the call, the returned boolean, the updated file view, the effect trace, and
the stats increments of this step. -/
structure StepOut where
  state : WState
  more : Bool
  view : WView
  evs : List Ev
  stats : WorkerStats
deriving DecidableEq, Repr

/-- Lines 129-179 after the lock check: run the branches, persist the state
(line 165), prefix the separator flag onto the message (lines 166-169; an
`AttributeError` if no message was built), write the outbox slot, and return
whether more work remains. -/
def stepRest (data : List Int) (st : WState) (inbox : Option Message)
    (write : Bool) (view : WView) (stats : WorkerStats) : Except Err StepOut :=
  match stepBranches data st inbox write view.output stats with
  | .error e => .error e
  | .ok (st2, msgOpt, write2, out2, evs, stats2) =>
    -- line 165: self._save_state() happens before any message is written
    let view2 := {view with stateFile := some st2, output := out2}
    match msgOpt with
    | none => .error Err.attrError
    | some (tag, vals) =>
      let m : Message := ⟨tag, vals, write2⟩
      let view3 := {view2 with outbox := some m}
      let stats3 := {stats2 with messages_sent := stats2.messages_sent + 1}
      let evs2 := evs ++ [Ev.save st2, Ev.send m]
      -- lines 171-179
      if st2.phase = Phase.DONE then .ok ⟨st2, false, view3, evs2, stats3⟩
      else if bothDoneCheck inbox st2.phase then .ok ⟨st2, false, view3, evs2, stats3⟩
      else .ok ⟨st2, true, view3, evs2, stats3⟩

/-- `MergeWorker.step` (lines 56-179) as a function of the worker's immutable
run and its file view.  The in-memory `self.state` is not an argument because
line 110 reloads it from the state file before any use. -/
def stepPure (data : List Int) (view : WView) : Except Err StepOut :=
  -- line 110: self.state = self._load_state()
  let st := loadState view.stateFile data
  -- lines 112-114: a finished worker returns False with no side effects
  if st.phase = Phase.DONE then .ok ⟨st, false, view, [], zeroStats⟩
  else
    -- lines 95-102, 117: read_inbox consumes the inbox slot if present
    match view.inbox with
    | none =>
      -- line 118: write = False; lines 122-126: a locked worker just waits
      if st.phase = Phase.LOCK then .ok ⟨st, true, view, [], zeroStats⟩
      else stepRest data st none false view zeroStats
    | some m0 =>
      let view1 := {view with inbox := none}
      let stats1 := {zeroStats with messages_received := 1}
      -- lines 118-121: the leading 'T'/'F' char becomes the write flag
      let write := m0.flag
      if st.phase = Phase.LOCK then
        -- lines 122-126
        if m0.tag = MTag.DONE ∨ m0.tag = MTag.UNLO then
          stepRest data {st with phase := Phase.UNLOCK} (some m0) write view1 stats1
        else .ok ⟨st, true, view1, [], stats1⟩
      else stepRest data st (some m0) write view1 stats1

/-- The in-memory part of a `MergeWorker` object (lines 18-34): its immutable
run, its in-memory `self.state` dict, and its accumulated `self.stats`. -/
structure MergeWorker where
  data : List Int
  state : WState
  stats : WorkerStats
deriving DecidableEq, Repr

/-- `MergeWorker.__init__` (lines 19-34): a freshly constructed worker loads
its state from the state file (or initializes it) and starts with zero
stats. -/
def MergeWorker.fresh (data : List Int) (stateFile : Option WState) : MergeWorker :=
  ⟨data, loadState stateFile data, zeroStats⟩

/-- One `step()` call on a worker object: the behavior is `stepPure` of the
run and the file view; the object's `self.state` and `self.stats` are
updated. -/
def MergeWorker.step (w : MergeWorker) (view : WView) :
    Except Err (MergeWorker × Bool × WView × List Ev) :=
  match stepPure w.data view with
  | .error e => .error e
  | .ok r => .ok (⟨w.data, r.state, addStats w.stats r.stats⟩, r.more, r.view, r.evs)

/-- Iterate `step()` `n` times on one worker, recording the observable
behavior of each step: the returned boolean, the file view after the step,
and the effect trace of the step. -/
def runWorkerTrace (w : MergeWorker) (view : WView) :
    Nat → Except Err (List (Bool × WView × List Ev))
  | 0 => .ok []
  | n + 1 =>
    match w.step view with
    | .error e => .error e
    | .ok (w2, more, view2, evs) =>
      match runWorkerTrace w2 view2 n with
      | .error e => .error e
      | .ok rest => .ok ((more, view2, evs) :: rest)

/-- The filesystem of a whole merge job: the two mailbox slots (`A_to_B.msg`,
`B_to_A.msg`), the two state files, and the shared output sink. -/
structure GWorld where
  slotAB : Option Message
  slotBA : Option Message
  stA : Option WState
  stB : Option WState
  out : List Int
deriving DecidableEq, Repr

/-- The fresh job filesystem: every file deleted, empty sink. -/
def g0 : GWorld := ⟨none, none, none, none, []⟩

/-- Worker A's view: inbox `B_to_A`, outbox `A_to_B`. -/
def viewA (g : GWorld) : WView := ⟨g.stA, g.slotBA, g.slotAB, g.out⟩

/-- Write back worker A's view into the job filesystem. -/
def putA (g : GWorld) (v : WView) : GWorld :=
  ⟨v.outbox, v.inbox, v.stateFile, g.stB, v.output⟩

/-- Worker B's view: inbox `A_to_B`, outbox `B_to_A`. -/
def viewB (g : GWorld) : WView := ⟨g.stB, g.slotAB, g.slotBA, g.out⟩

/-- Write back worker B's view into the job filesystem. -/
def putB (g : GWorld) (v : WView) : GWorld :=
  ⟨v.inbox, v.outbox, g.stA, v.stateFile, v.output⟩

/-- The `while any(active) and steps < max_steps` loop of `Coordinator.run`
(lines 194-198).  Each executed round increments `steps` at least once and
the loop continues only while `steps < maxSteps`, so at most `maxSteps`
rounds run; `fuel` is called with `maxSteps` and therefore never reaches `0`
while the guard still holds. -/
def runLoop (fuel : Nat) (wa wb : MergeWorker) (g : GWorld) (aA aB : Bool)
    (steps maxSteps : Nat) :
    Except Err (MergeWorker × MergeWorker × GWorld × Bool × Bool × Nat) :=
  match fuel with
  | 0 => .ok (wa, wb, g, aA, aB, steps)
  | fuel + 1 =>
    if (aA || aB) = true ∧ steps < maxSteps then
      match ((if aA then
               match wa.step (viewA g) with
               | .error e => .error e
               | .ok (wa2, more, v2, _) => .ok (wa2, putA g v2, more, steps + 1)
             else .ok (wa, g, aA, steps)) :
             Except Err (MergeWorker × GWorld × Bool × Nat)) with
      | .error e => .error e
      | .ok (wa1, g1, aA1, steps1) =>
        match ((if aB then
                 match wb.step (viewB g1) with
                 | .error e => .error e
                 | .ok (wb2, more, v2, _) => .ok (wb2, putB g1 v2, more, steps1 + 1)
               else .ok (wb, g1, aB, steps1)) :
               Except Err (MergeWorker × GWorld × Bool × Nat)) with
        | .error e => .error e
        | .ok (wb1, g2, aB1, steps2) => runLoop fuel wa1 wb1 g2 aA1 aB1 steps2 maxSteps
    else .ok (wa, wb, g, aA, aB, steps)

/-- The dict returned by `Coordinator.run` (lines 200-205). -/
structure RunResult where
  success : Bool
  total_steps : Nat
  stats_a : WorkerStats
  stats_b : WorkerStats
deriving DecidableEq, Repr

/-- `Coordinator.run` (lines 189-205), also returning the final job
filesystem so the output sink can be read off. -/
def coordinatorRun (wa wb : MergeWorker) (g : GWorld) (maxSteps : Nat) :
    Except Err (RunResult × GWorld) :=
  match runLoop maxSteps wa wb g true true 0 maxSteps with
  | .error e => .error e
  | .ok (wa1, wb1, g1, aA, aB, steps) =>
    .ok (⟨!(aA || aB), steps, wa1.stats, wb1.stats⟩, g1)

/-! ## Helper lemmas -/

/-- The `n`-step observable trace of a worker depends only on its immutable
run and the file view, never on the in-memory `self.state` or `self.stats`,
because line 110 reloads the persisted state at the start of every step. -/
theorem runWorkerTrace_data_only : ∀ (n : Nat) (d : List Int) (s1 s2 : WState)
    (t1 t2 : WorkerStats) (v : WView),
    runWorkerTrace ⟨d, s1, t1⟩ v n = runWorkerTrace ⟨d, s2, t2⟩ v n := by
  intro n
  induction n with
  | zero => intro _ _ _ _ _ _; rfl
  | succ n ih =>
    intro d s1 s2 t1 t2 v
    simp only [runWorkerTrace, MergeWorker.step]
    cases h : stepPure d v with
    | error e => rfl
    | ok r =>
      simp only []
      rw [ih d r.state r.state (addStats t1 r.stats) (addStats t2 r.stats) r.view]

/-! ## Claims -/

/-- Claim C1: the protocol does NOT succeed for every pair of sorted runs.
With runs `[5]` (worker A) and `[]` (worker B) and a generous budget, worker
B's first step reaches `output_till(self.data[-1] + 1)` (line 149) on its
empty run and the whole job aborts with an uncaught `IndexError` instead of
returning success with the merged output `[5]`. -/
theorem mergeRun_empty_peer_raises :
    coordinatorRun (MergeWorker.fresh [5] none) (MergeWorker.fresh [] none) g0 100 =
      .error Err.indexError := by rfl

/-- Claim C2: with exactly one empty input run the protocol can still crash:
for runs `[1,2]` (worker A, nonempty) and `[]` (worker B, empty), worker A
exhausts its run in its first move and sends a `Final` message, and worker B
then dereferences `self.data[-1]` (line 149) on its empty run, raising
`IndexError`; the run does not succeed and `[1,2]` is never fully emitted. -/
theorem mergeRun_one_empty_raises :
    coordinatorRun (MergeWorker.fresh [1,2] none) (MergeWorker.fresh [] none) g0 100 =
      .error Err.indexError := by rfl

/-- Claim C3: `step` can raise a user-visible error from a well-formed
configuration: a worker whose run is the empty (trivially sorted) list, with
consistent persisted state (`phase INIT`, `cursor 0 = len 0 = length of the
run`), receiving a `Final` message, hits the out-of-range access
`self.data[-1]` (line 149) and raises `IndexError`. -/
theorem step_empty_run_final_raises :
    stepPure []
      ⟨some ⟨Phase.INIT, 0, 0⟩, some ⟨MTag.DONE, [7], false⟩, none, []⟩ =
      .error Err.indexError := by rfl

/-- Claim C5: a step on a worker whose persisted phase is `LOCK`
(`AwaitingPeer`) with an empty inbox slot returns `True` (more work) and has
no effects at all: the file view (state file, inbox, outbox, output sink) is
returned unchanged, the effect trace is empty, and no stats counter moves. -/
theorem step_locked_no_inbox_frame (d : List Int) (v : WView) (s : WState)
    (hs : v.stateFile = some s) (hp : s.phase = Phase.LOCK) (hi : v.inbox = none) :
    stepPure d v = .ok ⟨s, true, v, [], zeroStats⟩ := by
  simp only [stepPure, loadState, hs, hi, hp]
  rfl

/-- Witness for C5 at a concrete configuration. -/
theorem step_locked_no_inbox_frame_wit :
    stepPure [1, 2]
      ⟨some ⟨Phase.LOCK, 1, 2⟩, none, some ⟨MTag.UNLO, [1], false⟩, [0]⟩ =
      .ok ⟨⟨Phase.LOCK, 1, 2⟩, true,
           ⟨some ⟨Phase.LOCK, 1, 2⟩, none, some ⟨MTag.UNLO, [1], false⟩, [0]⟩,
           [], zeroStats⟩ :=
  step_locked_no_inbox_frame [1, 2] _ _ rfl rfl rfl

/-- Claim C8: a step on a worker whose persisted phase is `DONE` (`Finished`)
returns `False` (no more work) immediately and has no side effects: the inbox
is not read or consumed, nothing is appended or sent, the state file is not
rewritten, and no stats counter moves. -/
theorem step_done_frame (d : List Int) (v : WView) (s : WState)
    (hs : v.stateFile = some s) (hp : s.phase = Phase.DONE) :
    stepPure d v = .ok ⟨s, false, v, [], zeroStats⟩ := by
  simp only [stepPure, loadState, hs, hp]
  rfl

/-- Witness for C8: even with a pending inbox message, a finished worker
leaves it in place. -/
theorem step_done_frame_wit :
    stepPure [3]
      ⟨some ⟨Phase.DONE, 1, 1⟩, some ⟨MTag.DONE, [], true⟩, none, [3]⟩ =
      .ok ⟨⟨Phase.DONE, 1, 1⟩, false,
           ⟨some ⟨Phase.DONE, 1, 1⟩, some ⟨MTag.DONE, [], true⟩, none, [3]⟩,
           [], zeroStats⟩ :=
  step_done_frame [3] _ _ rfl rfl

/-- Claim C7: restarting is idempotent.  At any point, a freshly constructed
worker given the same immutable run and the current state file behaves, for
every number of subsequent steps, exactly like the un-restarted worker: the
sequence of returned booleans, file views (outputs appended, messages sent,
states persisted) and effect traces coincide, because every step begins by
reloading the persisted state (line 110). -/
theorem restart_from_persisted_equiv (w : MergeWorker) (v : WView) (n : Nat) :
    runWorkerTrace w v n = runWorkerTrace (MergeWorker.fresh w.data v.stateFile) v n := by
  cases w with
  | mk d s t =>
    exact runWorkerTrace_data_only n d s (loadState v.stateFile d) t zeroStats v

/-! ## Effect-trace infrastructure (for C6 and C9) -/

/-- A trace consisting only of output-sink appends. -/
def allAppends (evs : List Ev) : Prop := ∀ e ∈ evs, ∃ x, e = Ev.append x

theorem allAppends_nil : allAppends [] := by
  intro e he; cases he

theorem allAppends_push (evs : List Ev) (x : Int) (h : allAppends evs) :
    allAppends (evs ++ [Ev.append x]) := by
  intro e he
  rcases List.mem_append.mp he with h1 | h1
  · exact h e h1
  · rcases List.mem_singleton.mp h1 with rfl
    exact ⟨x, rfl⟩

/-- The emission loop only appends to the effect trace. -/
theorem otLoop_allAppends (data : List Int) (maxV : Int) (count : Nat) :
    ∀ (fuel index : Nat) (w : Bool) (out : List Int) (evs : List Ev) (st : WorkerStats)
      (i2 : Nat) (w2 : Bool) (o2 : List Int) (e2 : List Ev) (st2 : WorkerStats),
    otLoop data maxV count fuel index w out evs st = .ok (i2, w2, o2, e2, st2) →
    allAppends evs → allAppends e2 := by
  intro fuel
  induction fuel with
  | zero =>
    intro index w out evs st i2 w2 o2 e2 st2 h ha
    simp only [otLoop, Except.ok.injEq, Prod.mk.injEq] at h
    obtain ⟨-, -, -, rfl, -⟩ := h
    exact ha
  | succ fuel ih =>
    intro index w out evs st i2 w2 o2 e2 st2 h ha
    simp only [otLoop] at h
    split at h
    · split at h
      · cases h
      · split at h
        · exact ih _ _ _ _ _ _ _ _ _ _ h (allAppends_push evs _ ha)
        · simp only [Except.ok.injEq, Prod.mk.injEq] at h
          obtain ⟨-, -, -, rfl, -⟩ := h
          exact ha
    · simp only [Except.ok.injEq, Prod.mk.injEq] at h
      obtain ⟨-, -, -, rfl, -⟩ := h
      exact ha

theorem output_till_allAppends (data : List Int) (maxV : Int) (incl : Bool)
    (index count : Nat) (w : Bool) (out : List Int) (evs : List Ev)
    (st : WorkerStats) (r : EmitRes)
    (h : output_till data maxV incl index count w out evs st = .ok r)
    (ha : allAppends evs) : allAppends r.evs := by
  simp only [output_till] at h
  split at h
  · cases h
  · rename_i i2 w2 o2 e2 st2 heq
    have he2 : allAppends e2 := otLoop_allAppends data maxV count _ _ _ _ _ _ _ _ _ _ _ heq ha
    split at h
    · cases h
      exact allAppends_push e2 maxV he2
    · cases h
      exact he2

theorem emitAll_allAppends (data : List Int) :
    ∀ (vals : List Int) (phase : Phase) (index count : Nat) (w : Bool)
      (out : List Int) (evs : List Ev) (st : WorkerStats) (r : EmitRes),
    emitAll data vals phase index count w out evs st = .ok r →
    allAppends evs → allAppends r.evs := by
  intro vals
  induction vals with
  | nil =>
    intro phase index count w out evs st r h ha
    simp only [emitAll, Except.ok.injEq] at h
    rw [← h]
    exact ha
  | cons v rest ih =>
    intro phase index count w out evs st r h ha
    simp only [emitAll] at h
    split at h
    · cases h
    · rename_i r1 heq
      exact ih _ _ _ _ _ _ _ _ h (output_till_allAppends _ _ _ _ _ _ _ _ _ _ heq ha)

/-- Any successful branch run leaves an all-append effect trace (the state
save and the message send happen afterwards, in `stepRest`). -/
theorem stepBranches_allAppends (data : List Int) (st : WState) (inbox : Option Message)
    (write : Bool) (out : List Int) (stats : WorkerStats)
    (st2 : WState) (msgOpt : Option (MTag × List Int)) (w2 : Bool) (out2 : List Int)
    (evs : List Ev) (stats2 : WorkerStats)
    (h : stepBranches data st inbox write out stats = .ok (st2, msgOpt, w2, out2, evs, stats2)) :
    allAppends evs := by
  simp only [stepBranches] at h
  split at h
  · split at h <;>
    · simp only [Except.ok.injEq, Prod.mk.injEq] at h
      obtain ⟨-, -, -, -, rfl, -⟩ := h
      exact allAppends_nil
  · split at h
    · split at h
      · simp only [Except.ok.injEq, Prod.mk.injEq] at h
        obtain ⟨-, -, -, -, rfl, -⟩ := h
        exact allAppends_nil
      · split at h
        · cases h
        · rename_i r1 heq1
          have h1 : allAppends r1.evs :=
            emitAll_allAppends data _ _ _ _ _ _ _ _ _ heq1 allAppends_nil
          split at h
          · cases h
          · split at h
            · cases h
            · rename_i r2 heq2
              have h2 : allAppends r2.evs :=
                output_till_allAppends _ _ _ _ _ _ _ _ _ _ heq2 h1
              simp only [Except.ok.injEq, Prod.mk.injEq] at h
              obtain ⟨-, -, -, -, rfl, -⟩ := h
              exact h2
    · split at h
      · cases h
      · rename_i r1 heq1
        have h1 : allAppends r1.evs := by
          split at heq1
          · simp only [Except.ok.injEq] at heq1
            rw [← heq1]
            exact allAppends_nil
          · exact emitAll_allAppends data _ _ _ _ _ _ _ _ _ heq1 allAppends_nil
        split at h <;>
        · simp only [Except.ok.injEq, Prod.mk.injEq] at h
          obtain ⟨-, -, -, -, rfl, -⟩ := h
          exact h1

/-- Structure of every successful `stepRest`: the branches produce only
appends, then the state is persisted, then the flagged message is written to
the outbox.  The persisted state is exactly the state a resumed worker would
load, and the sent message is exactly the outbox content. -/
theorem stepRest_shape (data : List Int) (st : WState) (inbox : Option Message)
    (write : Bool) (view : WView) (stats : WorkerStats) (r : StepOut)
    (h : stepRest data st inbox write view stats = .ok r) :
    ∃ st2 tag vals w2 out2 evs stats2,
      stepBranches data st inbox write view.output stats =
        .ok (st2, some (tag, vals), w2, out2, evs, stats2) ∧
      allAppends evs ∧
      r.evs = evs ++ [Ev.save st2, Ev.send ⟨tag, vals, w2⟩] ∧
      r.view.stateFile = some st2 ∧
      r.view.outbox = some ⟨tag, vals, w2⟩ ∧
      r.state = st2 ∧
      (r.more = false ↔ st2.phase = Phase.DONE) := by
  simp only [stepRest] at h
  split at h
  · cases h
  · rename_i st2 msgOpt w2 out2 evs stats2 heq
    have hApp : allAppends evs := stepBranches_allAppends _ _ _ _ _ _ _ _ _ _ _ _ heq
    split at h
    · cases h
    · rename_i tag vals
      refine ⟨st2, tag, vals, w2, out2, evs, stats2, heq, hApp, ?_⟩
      split at h
      · rename_i hDone
        cases h
        exact ⟨rfl, rfl, rfl, rfl, by simp [hDone]⟩
      · rename_i hNotDone
        split at h
        · rename_i hbd
          cases h
          refine ⟨rfl, rfl, rfl, rfl, ?_⟩
          constructor
          · intro _
            simp only [bothDoneCheck] at hbd
            cases inbox with
            | none => cases hbd
            | some m0 =>
              have := (Bool.and_eq_true _ _).mp hbd
              exact of_decide_eq_true this.2
          · intro _; rfl
        · cases h
          refine ⟨rfl, rfl, rfl, rfl, ?_⟩
          constructor
          · intro hfalse; cases hfalse
          · intro hDone
            exact absurd hDone (by assumption)

/-- Claim C6: in every successful `step()` call, either nothing is sent (and
then nothing is persisted or appended either), or the effect trace is some
output appends followed by the state-file write and only then the outbox
write.  The persisted state is exactly the state the outgoing message's
receiver-era resumption would load, so a crash between persisting and sending
can never leave a resumed worker believing it already sent a message it has
not. -/
theorem step_save_before_send (d : List Int) (v : WView) (r : StepOut)
    (h : stepPure d v = .ok r) :
    r.evs = [] ∨
    ∃ pre s m, r.evs = pre ++ [Ev.save s, Ev.send m] ∧ allAppends pre ∧
      r.view.stateFile = some s ∧ r.view.outbox = some m := by
  simp only [stepPure] at h
  split at h
  · cases h
    exact Or.inl rfl
  · split at h
    · split at h
      · cases h
        exact Or.inl rfl
      · obtain ⟨st2, tag, vals, w2, out2, evs, stats2, -, hApp, hevs, hsf, hob, -, -⟩ :=
          stepRest_shape _ _ _ _ _ _ _ h
        exact Or.inr ⟨evs, st2, ⟨tag, vals, w2⟩, hevs, hApp, hsf, hob⟩
    · split at h
      · split at h
        · obtain ⟨st2, tag, vals, w2, out2, evs, stats2, -, hApp, hevs, hsf, hob, -, -⟩ :=
            stepRest_shape _ _ _ _ _ _ _ h
          exact Or.inr ⟨evs, st2, ⟨tag, vals, w2⟩, hevs, hApp, hsf, hob⟩
        · cases h
          exact Or.inl rfl
      · obtain ⟨st2, tag, vals, w2, out2, evs, stats2, -, hApp, hevs, hsf, hob, -, -⟩ :=
          stepRest_shape _ _ _ _ _ _ _ h
        exact Or.inr ⟨evs, st2, ⟨tag, vals, w2⟩, hevs, hApp, hsf, hob⟩

/-- Witness for C6 at a concrete first-move step (run `[1]`, fresh files):
the step persists `DONE` and then sends the final chunk. -/
theorem step_save_before_send_wit :
    ([Ev.save ⟨Phase.DONE, 1, 1⟩, Ev.send ⟨MTag.DONE, [1], false⟩] : List Ev) = [] ∨
    ∃ pre s m,
      ([Ev.save ⟨Phase.DONE, 1, 1⟩, Ev.send ⟨MTag.DONE, [1], false⟩] : List Ev) =
        pre ++ [Ev.save s, Ev.send m] ∧ allAppends pre ∧
      (some ⟨Phase.DONE, 1, 1⟩ : Option WState) = some s ∧
      (some ⟨MTag.DONE, [1], false⟩ : Option Message) = some m :=
  step_save_before_send [1] ⟨none, none, none, []⟩
    ⟨⟨Phase.DONE, 1, 1⟩, false,
     ⟨some ⟨Phase.DONE, 1, 1⟩, none, some ⟨MTag.DONE, [1], false⟩, []⟩,
     [Ev.save ⟨Phase.DONE, 1, 1⟩, Ev.send ⟨MTag.DONE, [1], false⟩],
     ⟨0, 1, 0, 0⟩⟩ rfl

/-! ## Message-size bounds (for C9) -/

theorem pySlice_length_le (l : List Int) (i j : Nat) :
    (pySlice l i j).length ≤ j - i := by
  unfold pySlice
  rw [List.length_take]
  exact Nat.min_le_left _ _

theorem chunk_slice_le_eleven (l : List Int) (i len : Nat) :
    (pySlice l i (min len (i + 11))).length ≤ 11 := by
  have h1 : (pySlice l i (min len (i + 11))).length ≤ min len (i + 11) - i :=
    pySlice_length_le l i (min len (i + 11))
  have h2 : min len (i + 11) - i ≤ (i + 11) - i :=
    Nat.sub_le_sub_right (Nat.min_le_right _ _) i
  have h3 : (i + 11) - i = 11 := by omega
  omega

/-- Every outgoing message built by the branches carries at most 11 values,
and when the incoming message was a `Final` (`DONE`) the reply is the
`Final` acknowledgment with an empty value list. -/
theorem stepBranches_msg_bounds (data : List Int) (st : WState) (inbox : Option Message)
    (write : Bool) (out : List Int) (stats : WorkerStats)
    (st2 : WState) (msgOpt : Option (MTag × List Int)) (w2 : Bool) (out2 : List Int)
    (evs : List Ev) (stats2 : WorkerStats)
    (h : stepBranches data st inbox write out stats = .ok (st2, msgOpt, w2, out2, evs, stats2)) :
    (∀ tag vals, msgOpt = some (tag, vals) → vals.length ≤ 11) ∧
    (isDoneMsg inbox = true →
      ∀ tag vals, msgOpt = some (tag, vals) → tag = MTag.DONE ∧ vals = []) := by
  simp only [stepBranches] at h
  split at h
  · rename_i hfirst
    constructor
    · intro tag vals hm
      split at h <;>
      · simp only [Except.ok.injEq, Prod.mk.injEq] at h
        obtain ⟨-, hmsg, -, -, -, -⟩ := h
        rw [← hmsg] at hm
        cases hm
        exact chunk_slice_le_eleven data st.index st.len
    · intro hdone
      rw [hfirst.2] at hdone
      cases hdone
  · split at h
    · rename_i hdone
      split at h
      · simp only [Except.ok.injEq, Prod.mk.injEq] at h
        obtain ⟨-, hmsg, -, -, -, -⟩ := h
        constructor
        · intro tag vals hm; rw [← hmsg] at hm; cases hm
        · intro _ tag vals hm; rw [← hmsg] at hm; cases hm
      · split at h
        · cases h
        · split at h
          · cases h
          · split at h
            · cases h
            · simp only [Except.ok.injEq, Prod.mk.injEq] at h
              obtain ⟨-, hmsg, -, -, -, -⟩ := h
              constructor
              · intro tag vals hm
                rw [← hmsg] at hm
                cases hm
                exact Nat.zero_le 11
              · intro _ tag vals hm
                rw [← hmsg] at hm
                cases hm
                exact ⟨rfl, rfl⟩
    · rename_i hnotdone
      constructor
      · intro tag vals hm
        split at h
        · cases h
        · rename_i r1 heq1
          split at h <;>
          · simp only [Except.ok.injEq, Prod.mk.injEq] at h
            obtain ⟨-, hmsg, -, -, -, -⟩ := h
            rw [← hmsg] at hm
            cases hm
            exact chunk_slice_le_eleven data r1.index st.len
      · intro hdone
        exact absurd hdone (by simp [hnotdone])

/-- A send event in a `stepRest`-shaped trace can only be the trailing sent
message. -/
theorem send_mem_shape (pre : List Ev) (hpre : allAppends pre) (s : WState)
    (m msent : Message) (hm : Ev.send m ∈ pre ++ [Ev.save s, Ev.send msent]) :
    m = msent := by
  rcases List.mem_append.mp hm with h1 | h1
  · obtain ⟨x, hx⟩ := hpre _ h1
    cases hx
  · rcases List.mem_cons.mp h1 with h2 | h2
    · cases h2
    · rcases List.mem_cons.mp h2 with h3 | h3
      · cases h3; rfl
      · cases h3

/-- Claim C9: every message a worker writes to its outbox carries at most
K = 11 integers (each chunk is the `data[index:min(len, index+11)]` slice of
its not-yet-sent values), and when the step was processing an incoming
`Final` message the reply sent is the `Final` acknowledgment with an empty
value list. -/
theorem step_message_bounds (d : List Int) (v : WView) (r : StepOut)
    (h : stepPure d v = .ok r) :
    (∀ m, Ev.send m ∈ r.evs → m.values.length ≤ 11) ∧
    (∀ m0 m, v.inbox = some m0 → m0.tag = MTag.DONE → Ev.send m ∈ r.evs →
      m.tag = MTag.DONE ∧ m.values = []) := by
  simp only [stepPure] at h
  split at h
  · cases h
    constructor
    · intro m hm; cases hm
    · intro m0 m _ _ hm; cases hm
  · split at h
    · rename_i hnone
      split at h
      · cases h
        constructor
        · intro m hm; cases hm
        · intro m0 m _ _ hm; cases hm
      · obtain ⟨st2, tag, vals, w2, out2, evs, stats2, hbr, hApp, hevs, -, -, -, -⟩ :=
          stepRest_shape _ _ _ _ _ _ _ h
        have hb := stepBranches_msg_bounds _ _ _ _ _ _ _ _ _ _ _ _ hbr
        constructor
        · intro m hm
          rw [hevs] at hm
          have := send_mem_shape evs hApp st2 m _ hm
          rw [this]
          exact hb.1 tag vals rfl
        · intro m0 m hm0 _ _
          rw [hnone] at hm0
          cases hm0
    · rename_i m0 hsome
      split at h
      · split at h
        · obtain ⟨st2, tag, vals, w2, out2, evs, stats2, hbr, hApp, hevs, -, -, -, -⟩ :=
            stepRest_shape _ _ _ _ _ _ _ h
          have hb := stepBranches_msg_bounds _ _ _ _ _ _ _ _ _ _ _ _ hbr
          constructor
          · intro m hm
            rw [hevs] at hm
            have := send_mem_shape evs hApp st2 m _ hm
            rw [this]
            exact hb.1 tag vals rfl
          · intro m1 m hm1 htag hm
            rw [hsome] at hm1
            cases hm1
            rw [hevs] at hm
            have hmeq := send_mem_shape evs hApp st2 m _ hm
            have hd : isDoneMsg (some m0) = true := by
              simp [isDoneMsg, htag]
            obtain ⟨ht, hv⟩ := hb.2 hd tag vals rfl
            rw [hmeq, ht, hv]
            exact ⟨rfl, rfl⟩
        · cases h
          constructor
          · intro m hm; cases hm
          · intro m1 m _ _ hm; cases hm
      · obtain ⟨st2, tag, vals, w2, out2, evs, stats2, hbr, hApp, hevs, -, -, -, -⟩ :=
          stepRest_shape _ _ _ _ _ _ _ h
        have hb := stepBranches_msg_bounds _ _ _ _ _ _ _ _ _ _ _ _ hbr
        constructor
        · intro m hm
          rw [hevs] at hm
          have := send_mem_shape evs hApp st2 m _ hm
          rw [this]
          exact hb.1 tag vals rfl
        · intro m1 m hm1 htag hm
          rw [hsome] at hm1
          cases hm1
          rw [hevs] at hm
          have hmeq := send_mem_shape evs hApp st2 m _ hm
          have hd : isDoneMsg (some m0) = true := by
            simp [isDoneMsg, htag]
          obtain ⟨ht, hv⟩ := hb.2 hd tag vals rfl
          rw [hmeq, ht, hv]
          exact ⟨rfl, rfl⟩

/-- Witness for C9: a worker with a 13-value run makes its first move and the
chunk it sends carries exactly 11 values. -/
theorem step_message_bounds_wit :
    (∀ m, Ev.send m ∈
        (stepPure [0,1,2,3,4,5,6,7,8,9,10,11,12] ⟨none, none, none, []⟩).toOption.elim
          [] StepOut.evs → m.values.length ≤ 11) ∧
    (∀ m0 m, (⟨none, none, none, []⟩ : WView).inbox = some m0 → m0.tag = MTag.DONE →
      Ev.send m ∈
        (stepPure [0,1,2,3,4,5,6,7,8,9,10,11,12] ⟨none, none, none, []⟩).toOption.elim
          [] StepOut.evs →
      m.tag = MTag.DONE ∧ m.values = []) := by
  have h := step_message_bounds [0,1,2,3,4,5,6,7,8,9,10,11,12] ⟨none, none, none, []⟩
    ⟨⟨Phase.LOCK, 11, 13⟩, true,
     ⟨some ⟨Phase.LOCK, 11, 13⟩, none,
      some ⟨MTag.UNLO, [0,1,2,3,4,5,6,7,8,9,10], false⟩, []⟩,
     [Ev.save ⟨Phase.LOCK, 11, 13⟩,
      Ev.send ⟨MTag.UNLO, [0,1,2,3,4,5,6,7,8,9,10], false⟩],
     ⟨0, 1, 0, 0⟩⟩ rfl
  exact h

/-! ## Persisted-state invariants (for C10) -/

/-- Well-formedness of a state dict for a given run: the cursor does not
exceed the stored length, and the stored length is the run's length. -/
def wfState (d : List Int) (s : WState) : Prop :=
  s.index ≤ s.len ∧ s.len = d.length

/-- The cursor recorded in a state file (`0` when the file does not exist,
matching the initial state). -/
def cursorOf (f : Option WState) : Nat :=
  match f with
  | some s => s.index
  | none => 0

/-- The emission loop only advances the cursor, and not past `count`. -/
theorem otLoop_index_bounds (data : List Int) (maxV : Int) (count : Nat) :
    ∀ (fuel index : Nat) (w : Bool) (out : List Int) (evs : List Ev) (st : WorkerStats)
      (i2 : Nat) (w2 : Bool) (o2 : List Int) (e2 : List Ev) (st2 : WorkerStats),
    otLoop data maxV count fuel index w out evs st = .ok (i2, w2, o2, e2, st2) →
    index ≤ i2 ∧ i2 ≤ max index count := by
  intro fuel
  induction fuel with
  | zero =>
    intro index w out evs st i2 w2 o2 e2 st2 h
    simp only [otLoop, Except.ok.injEq, Prod.mk.injEq] at h
    obtain ⟨rfl, -⟩ := h
    exact ⟨Nat.le_refl _, Nat.le_max_left _ _⟩
  | succ fuel ih =>
    intro index w out evs st i2 w2 o2 e2 st2 h
    simp only [otLoop] at h
    split at h
    · rename_i hlt
      split at h
      · cases h
      · split at h
        · obtain ⟨h1, h2⟩ := ih _ _ _ _ _ _ _ _ _ _ h
          constructor
          · omega
          · have : max (index + 1) count = count := Nat.max_eq_right hlt
            rw [this] at h2
            exact Nat.le_trans h2 (Nat.le_max_right _ _)
        · simp only [Except.ok.injEq, Prod.mk.injEq] at h
          obtain ⟨rfl, -⟩ := h
          exact ⟨Nat.le_refl _, Nat.le_max_left _ _⟩
    · simp only [Except.ok.injEq, Prod.mk.injEq] at h
      obtain ⟨rfl, -⟩ := h
      exact ⟨Nat.le_refl _, Nat.le_max_left _ _⟩

theorem output_till_index_bounds (data : List Int) (maxV : Int) (incl : Bool)
    (index count : Nat) (w : Bool) (out : List Int) (evs : List Ev)
    (st : WorkerStats) (r : EmitRes)
    (h : output_till data maxV incl index count w out evs st = .ok r) :
    index ≤ r.index ∧ r.index ≤ max index count := by
  simp only [output_till] at h
  split at h
  · cases h
  · rename_i i2 w2 o2 e2 st2 heq
    have hb := otLoop_index_bounds data maxV count _ _ _ _ _ _ _ _ _ _ _ heq
    split at h <;> (cases h; exact hb)

theorem emitAll_index_bounds (data : List Int) :
    ∀ (vals : List Int) (phase : Phase) (index count : Nat) (w : Bool)
      (out : List Int) (evs : List Ev) (st : WorkerStats) (r : EmitRes),
    emitAll data vals phase index count w out evs st = .ok r →
    index ≤ r.index ∧ r.index ≤ max index count := by
  intro vals
  induction vals with
  | nil =>
    intro phase index count w out evs st r h
    simp only [emitAll, Except.ok.injEq] at h
    rw [← h]
    exact ⟨Nat.le_refl _, Nat.le_max_left _ _⟩
  | cons v rest ih =>
    intro phase index count w out evs st r h
    simp only [emitAll] at h
    split at h
    · cases h
    · rename_i r1 heq
      have h1 := output_till_index_bounds data v true index count w out evs st r1 heq
      have h2 := ih _ _ _ _ _ _ _ _ h
      constructor
      · exact Nat.le_trans h1.1 h2.1
      · have : max r1.index count ≤ max index count := by
          have := h1.2
          omega
        exact Nat.le_trans h2.2 this

/-- Every successful branch run preserves state well-formedness and never
moves the cursor backwards; the stored length is never modified. -/
theorem stepBranches_state_bounds (data : List Int) (st : WState) (inbox : Option Message)
    (write : Bool) (out : List Int) (stats : WorkerStats)
    (st2 : WState) (msgOpt : Option (MTag × List Int)) (w2 : Bool) (out2 : List Int)
    (evs : List Ev) (stats2 : WorkerStats)
    (h : stepBranches data st inbox write out stats = .ok (st2, msgOpt, w2, out2, evs, stats2))
    (hwf : wfState data st) :
    wfState data st2 ∧ st.index ≤ st2.index := by
  obtain ⟨hle, hlen⟩ := hwf
  simp only [stepBranches] at h
  split at h
  · split at h <;>
    · simp only [Except.ok.injEq, Prod.mk.injEq] at h
      obtain ⟨hst, -⟩ := h
      rw [← hst]
      refine ⟨⟨Nat.min_le_left _ _, hlen⟩, ?_⟩
      exact Nat.le_min.mpr ⟨hle, Nat.le_add_right _ _⟩
  · split at h
    · split at h
      · simp only [Except.ok.injEq, Prod.mk.injEq] at h
        obtain ⟨hst, -⟩ := h
        rw [← hst]
        exact ⟨⟨hle, hlen⟩, Nat.le_refl _⟩
      · split at h
        · cases h
        · rename_i r1 heq1
          have hb1 := emitAll_index_bounds data _ _ _ _ _ _ _ _ _ heq1
          split at h
          · cases h
          · split at h
            · cases h
            · rename_i r2 heq2
              have hb2 := output_till_index_bounds _ _ _ _ _ _ _ _ _ _ heq2
              simp only [Except.ok.injEq, Prod.mk.injEq] at h
              obtain ⟨hst, -⟩ := h
              rw [← hst]
              refine ⟨⟨?_, hlen⟩, ?_⟩
              · simp only []
                have := hb1.2
                have := hb2.2
                omega
              · simp only []
                exact Nat.le_trans hb1.1 hb2.1
    · split at h
      · cases h
      · rename_i r1 heq1
        have hb1 : st.index ≤ r1.index ∧ r1.index ≤ max st.index st.len := by
          split at heq1
          · simp only [Except.ok.injEq] at heq1
            rw [← heq1]
            exact ⟨Nat.le_refl _, Nat.le_max_left _ _⟩
          · exact emitAll_index_bounds data _ _ _ _ _ _ _ _ _ heq1
        split at h <;>
        · simp only [Except.ok.injEq, Prod.mk.injEq] at h
          obtain ⟨hst, -⟩ := h
          rw [← hst]
          refine ⟨⟨Nat.min_le_left _ _, hlen⟩, ?_⟩
          refine Nat.le_min.mpr ⟨?_, ?_⟩
          · have := hb1.2; omega
          · have := hb1.1; omega

/-- Claim C10: every successful `step()` preserves well-formedness of the
persisted state: afterwards the cursor satisfies `index ≤ len`, the stored
`len` still equals the length of the worker's immutable run, and the cursor
never decreases.  (The phase always being one of INIT/LOCK/UNLOCK/DONE is
carried by the `Phase` type of the embedding, mirroring the four strings the
code ever stores.) -/
theorem step_preserves_state_wf (d : List Int) (v : WView) (r : StepOut)
    (hwf : ∀ s, v.stateFile = some s → wfState d s)
    (h : stepPure d v = .ok r) :
    (∀ s, r.view.stateFile = some s → wfState d s) ∧
    cursorOf v.stateFile ≤ cursorOf r.view.stateFile := by
  have hwf0 : wfState d (loadState v.stateFile d) := by
    cases hv : v.stateFile with
    | none => exact ⟨Nat.zero_le _, rfl⟩
    | some s => exact hwf s hv
  have hcur : cursorOf v.stateFile = (loadState v.stateFile d).index := by
    cases v.stateFile with
    | none => rfl
    | some s => rfl
  simp only [stepPure] at h
  split at h
  · cases h
    exact ⟨hwf, Nat.le_refl _⟩
  · split at h
    · split at h
      · cases h
        exact ⟨hwf, Nat.le_refl _⟩
      · obtain ⟨st2, tag, vals, w2, out2, evs, stats2, hbr, -, -, hsf, -, -, -⟩ :=
          stepRest_shape _ _ _ _ _ _ _ h
        have hb := stepBranches_state_bounds _ _ _ _ _ _ _ _ _ _ _ _ hbr hwf0
        constructor
        · intro s hs
          rw [hsf] at hs
          cases hs
          exact hb.1
        · rw [hsf, hcur]
          exact hb.2
    · split at h
      · split at h
        · obtain ⟨st2, tag, vals, w2, out2, evs, stats2, hbr, -, -, hsf, -, -, -⟩ :=
            stepRest_shape _ _ _ _ _ _ _ h
          have hwf1 : wfState d {loadState v.stateFile d with phase := Phase.UNLOCK} :=
            ⟨hwf0.1, hwf0.2⟩
          have hb := stepBranches_state_bounds _ _ _ _ _ _ _ _ _ _ _ _ hbr hwf1
          constructor
          · intro s hs
            rw [hsf] at hs
            cases hs
            exact hb.1
          · rw [hsf, hcur]
            exact hb.2
        · cases h
          exact ⟨hwf, Nat.le_refl _⟩
      · obtain ⟨st2, tag, vals, w2, out2, evs, stats2, hbr, -, -, hsf, -, -, -⟩ :=
          stepRest_shape _ _ _ _ _ _ _ h
        have hb := stepBranches_state_bounds _ _ _ _ _ _ _ _ _ _ _ _ hbr hwf0
        constructor
        · intro s hs
          rw [hsf] at hs
          cases hs
          exact hb.1
        · rw [hsf, hcur]
          exact hb.2

/-- Witness for C10: a steady-state step from a well-formed state keeps the
state well-formed and advances the cursor. -/
theorem step_preserves_state_wf_wit :
    (∀ s, (⟨some ⟨Phase.LOCK, 1, 2⟩, some ⟨MTag.UNLO, [5], true⟩,
           none, [9]⟩ : WView).stateFile = some s →
        wfState [4, 8] s) ∧
    ((∀ s, (some ⟨Phase.LOCK, 2, 2⟩ : Option WState) = some s → wfState [4, 8] s) ∧
     cursorOf (some ⟨Phase.LOCK, 1, 2⟩) ≤ cursorOf (some ⟨Phase.LOCK, 2, 2⟩)) := by
  refine ⟨fun s hs => ?_, ?_⟩
  · cases hs
    exact ⟨by decide, rfl⟩
  · exact step_preserves_state_wf [4, 8]
      ⟨some ⟨Phase.LOCK, 1, 2⟩, some ⟨MTag.UNLO, [5], true⟩, none, [9]⟩
      ⟨⟨Phase.LOCK, 2, 2⟩, true,
       ⟨some ⟨Phase.LOCK, 2, 2⟩, none, some ⟨MTag.UNLO, [8], true⟩, [9, 5]⟩,
       [Ev.append 5, Ev.save ⟨Phase.LOCK, 2, 2⟩, Ev.send ⟨MTag.UNLO, [8], true⟩],
       ⟨0, 1, 1, 1⟩⟩ (fun s hs => by cases hs; exact ⟨by decide, rfl⟩) rfl

/-! ## Coordinator budget accounting (for C4) -/

/-- A state file recording a finished worker. -/
def doneFile (f : Option WState) : Prop :=
  ∃ s, f = some s ∧ s.phase = Phase.DONE

/-- A step that returns `False` always leaves (or found) a state file whose
phase is `DONE`. -/
theorem stepPure_more_false_done (d : List Int) (v : WView) (r : StepOut)
    (h : stepPure d v = .ok r) (hm : r.more = false) :
    doneFile r.view.stateFile := by
  simp only [stepPure] at h
  split at h
  · rename_i hdone
    cases h
    cases hv : v.stateFile with
    | none =>
      rw [hv] at hdone
      simp only [loadState, initialState] at hdone
      cases hdone
    | some s =>
      rw [hv] at hdone
      exact ⟨s, rfl, hdone⟩
  · split at h
    · split at h
      · cases h
        cases hm
      · obtain ⟨st2, tag, vals, w2, out2, evs, stats2, -, -, -, hsf, -, -, hiff⟩ :=
          stepRest_shape _ _ _ _ _ _ _ h
        exact ⟨st2, hsf, hiff.mp hm⟩
    · split at h
      · split at h
        · obtain ⟨st2, tag, vals, w2, out2, evs, stats2, -, -, -, hsf, -, -, hiff⟩ :=
            stepRest_shape _ _ _ _ _ _ _ h
          exact ⟨st2, hsf, hiff.mp hm⟩
        · cases h
          cases hm
      · obtain ⟨st2, tag, vals, w2, out2, evs, stats2, -, -, -, hsf, -, -, hiff⟩ :=
          stepRest_shape _ _ _ _ _ _ _ h
        exact ⟨st2, hsf, hiff.mp hm⟩

theorem workerStep_false_done (w : MergeWorker) (v : WView) (w2 : MergeWorker)
    (v2 : WView) (evs : List Ev) (h : w.step v = .ok (w2, false, v2, evs)) :
    doneFile v2.stateFile := by
  simp only [MergeWorker.step] at h
  split at h
  · cases h
  · rename_i r heq
    simp only [Except.ok.injEq, Prod.mk.injEq] at h
    obtain ⟨-, hmore, hview, -⟩ := h
    rw [← hview]
    exact stepPure_more_false_done _ _ _ heq hmore

/-- Loop invariant of `Coordinator.run`: the step counter never exceeds
`maxSteps + 1` (the guard is checked only at the top of each round, and a
round makes at most two `step()` calls), and a worker that reported
completion has a `DONE` state file. -/
theorem runLoop_bound : ∀ (fuel : Nat) (wa wb : MergeWorker) (g : GWorld) (aA aB : Bool)
    (steps maxSteps : Nat) (wa2 wb2 : MergeWorker) (g2 : GWorld) (aA2 aB2 : Bool)
    (steps2 : Nat),
    runLoop fuel wa wb g aA aB steps maxSteps = .ok (wa2, wb2, g2, aA2, aB2, steps2) →
    steps ≤ maxSteps + 1 →
    (aA = false → doneFile g.stA) →
    (aB = false → doneFile g.stB) →
    steps2 ≤ maxSteps + 1 ∧ (aA2 = false → doneFile g2.stA) ∧
      (aB2 = false → doneFile g2.stB) := by
  intro fuel
  induction fuel with
  | zero =>
    intro wa wb g aA aB steps maxSteps wa2 wb2 g2 aA2 aB2 steps2 h hs hA hB
    simp only [runLoop, Except.ok.injEq, Prod.mk.injEq] at h
    obtain ⟨-, -, rfl, rfl, rfl, rfl⟩ := h
    exact ⟨hs, hA, hB⟩
  | succ fuel ih =>
    intro wa wb g aA aB steps maxSteps wa2 wb2 g2 aA2 aB2 steps2 h hs hA hB
    simp only [runLoop] at h
    split at h
    · rename_i hcond
      obtain ⟨horb, hlt⟩ := hcond
      split at h
      · cases h
      · rename_i wa1 g1 aA1 steps1 heq1
        have hfacts1 : steps1 ≤ steps + 1 ∧ g1.stB = g.stB ∧
            (aA1 = false → doneFile g1.stA) := by
          cases aA with
          | false =>
            simp only [Bool.false_eq_true, if_false] at heq1
            simp only [Except.ok.injEq, Prod.mk.injEq] at heq1
            obtain ⟨-, rfl, rfl, rfl⟩ := heq1
            exact ⟨Nat.le_succ _, rfl, fun _ => hA rfl⟩
          | true =>
            simp only [if_true] at heq1
            split at heq1
            · cases heq1
            · rename_i wa2' more v2 evs hstep
              simp only [Except.ok.injEq, Prod.mk.injEq] at heq1
              obtain ⟨-, rfl, rfl, rfl⟩ := heq1
              refine ⟨Nat.le_refl _, rfl, ?_⟩
              intro hmore
              rw [hmore] at hstep
              exact workerStep_false_done _ _ _ _ _ hstep
        obtain ⟨hst1, hgB, hdA1⟩ := hfacts1
        split at h
        · cases h
        · rename_i wb1 g1' aB1 steps1' heq2
          have hfacts2 : steps1' ≤ steps1 + 1 ∧ g1'.stA = g1.stA ∧
              (aB1 = false → doneFile g1'.stB) := by
            cases aB with
            | false =>
              simp only [Bool.false_eq_true, if_false] at heq2
              simp only [Except.ok.injEq, Prod.mk.injEq] at heq2
              obtain ⟨-, rfl, rfl, rfl⟩ := heq2
              refine ⟨Nat.le_succ _, rfl, fun _ => ?_⟩
              rw [hgB]
              exact hB rfl
            | true =>
              simp only [if_true] at heq2
              split at heq2
              · cases heq2
              · rename_i wb2' more v2 evs hstep
                simp only [Except.ok.injEq, Prod.mk.injEq] at heq2
                obtain ⟨-, rfl, rfl, rfl⟩ := heq2
                refine ⟨Nat.le_refl _, rfl, ?_⟩
                intro hmore
                rw [hmore] at hstep
                exact workerStep_false_done _ _ _ _ _ hstep
          obtain ⟨hst2, hgA, hdB1⟩ := hfacts2
          refine ih _ _ _ _ _ _ _ _ _ _ _ _ _ h (by omega) ?_ hdB1
          intro hfalse
          rw [hgA]
          exact hdA1 hfalse
    · simp only [Except.ok.injEq, Prod.mk.injEq] at h
      obtain ⟨-, -, rfl, rfl, rfl, rfl⟩ := h
      exact ⟨hs, hA, hB⟩

/-- Counterexample to C4 as stated: with `max_steps = 1` and two active
workers (runs `[0,2]` and `[1]`), `Coordinator.run` calls `step()` twice --
more than `max_steps` times -- because the budget is checked only at the top
of each round; moreover it still reports `success=true` even though the
budget was exceeded mid-round. -/
theorem run_budget_exceeded_cex :
    (coordinatorRun (MergeWorker.fresh [0, 2] none) (MergeWorker.fresh [1] none) g0 1).map
      (fun p => (p.1.success, p.1.total_steps)) = .ok (true, 2) ∧ ¬ (2 ≤ 1) :=
  ⟨rfl, by decide⟩

/-- Claim C4 (amended): `Coordinator.run` calls `step()` at most
`max_steps + 1` times in total (the budget is checked only at the top of
each two-worker round, so the second worker may still be stepped once after
the budget is reached), and whenever `success` is true both workers reported
completion by loop exit, each leaving a `DONE` state file. -/
theorem run_calls_bounded (wa wb : MergeWorker) (g : GWorld) (maxSteps : Nat)
    (r : RunResult) (gf : GWorld)
    (h : coordinatorRun wa wb g maxSteps = .ok (r, gf)) :
    r.total_steps ≤ maxSteps + 1 ∧
    (r.success = true → doneFile gf.stA ∧ doneFile gf.stB) := by
  simp only [coordinatorRun] at h
  split at h
  · cases h
  · rename_i wa1 wb1 g1 aA aB steps heq
    have hb := runLoop_bound maxSteps wa wb g true true 0 maxSteps _ _ _ _ _ _ heq
      (by omega) (by intro hc; cases hc) (by intro hc; cases hc)
    simp only [Except.ok.injEq, Prod.mk.injEq] at h
    obtain ⟨hr, hg⟩ := h
    constructor
    · rw [← hr]
      exact hb.1
    · intro hsucc
      rw [← hr] at hsucc
      have hff : aA = false ∧ aB = false := by
        cases aA <;> cases aB <;> simp_all
      rw [← hg]
      exact ⟨hb.2.1 hff.1, hb.2.2 hff.2⟩

/-- Witness for the amended C4 at a concrete run (`[0,2]` and `[1]`,
budget 5): 2 steps were taken, within the `max_steps + 1` bound, and both
state files ended `DONE`. -/
theorem run_calls_bounded_wit :
    (2 : Nat) ≤ 5 + 1 ∧
    ((true : Bool) = true →
      doneFile (some ⟨Phase.DONE, 2, 2⟩) ∧ doneFile (some ⟨Phase.DONE, 1, 1⟩)) :=
  run_calls_bounded (MergeWorker.fresh [0, 2] none) (MergeWorker.fresh [1] none) g0 5
    ⟨true, 2, ⟨0, 1, 0, 0⟩, ⟨1, 1, 1, 3⟩⟩
    ⟨none, some ⟨MTag.DONE, [], true⟩, some ⟨Phase.DONE, 2, 2⟩,
     some ⟨Phase.DONE, 1, 1⟩, [0, 1, 2]⟩ rfl
